import Mathlib

/- Verification of the advanced-vector repository (src/advanced-vector/vector.h).

   The file shallowly embeds the two components of the source — the RawMemory
   storage block and the Vector sequence container — and proves the stated
   properties of their operations.

   Three views of the code are used, each translated from the source:
   - `Vec`: the container as its sequence of live elements plus a capacity,
     with every mutating operation transcribed branch by branch from the
     corresponding member function of Vector<T>;
   - `MVec`: a slot-level view (a block of possibly-uninitialized slots plus a
     size) used for the self-aliasing append, where the construction order of
     EmplaceBack matters;
   - event traces (`Ev`) recording element constructions and destructions in
     the destination block during a relocation whose element copies may throw,
     used for the exception-safety rollback analysis;
   plus a small model of RawMemory's destructor and Deallocate. -/

namespace AdvVector

/-- Sequence-plus-capacity view of Vector<T>: `elems` is the list of live
elements (so `elems.length` plays the role of `size_`) and `cap` the capacity
of the owned RawMemory block. -/
structure Vec (α : Type) where
  elems : List α
  cap : Nat
deriving Repr, DecidableEq

/-- Vector<T>::TransferAndSwap(new_data): relocates all live elements in order
into the freshly allocated block (move if safe, else copy), destroys the
originals and swaps the blocks.  The live sequence is unchanged; the capacity
becomes that of the new block. -/
def Vec.transferAndSwap (v : Vec α) (newCap : Nat) : Vec α :=
  { elems := v.elems, cap := newCap }

/-- Vector<T>::Reserve(new_capacity): returns unchanged when
`new_capacity <= data_.Capacity()`, otherwise allocates a block of exactly
`new_capacity` slots and transfers into it. -/
def Vec.reserve (v : Vec α) (newCapacity : Nat) : Vec α :=
  if newCapacity ≤ v.cap then v
  else v.transferAndSwap newCapacity

/-- Vector<T>::EmplaceBack(args...): when `size_ == Capacity()` allocates a new
block of capacity `size_ == 0 ? 1 : size_ * 2`, constructs the new element into
the new block at offset `size_`, then transfers and swaps; otherwise constructs
directly into the next free slot.  Afterwards `++size_` and the function
returns `data_[size_ - 1]`, modelled here as the index `size_ - 1` of the
returned element in the updated container. -/
def Vec.emplaceBack (v : Vec α) (a : α) : Vec α × Nat :=
  if v.elems.length = v.cap then
    ({ elems := v.elems ++ [a],
       cap := if v.elems.length = 0 then 1 else v.elems.length * 2 },
     v.elems.length)
  else
    ({ elems := v.elems ++ [a], cap := v.cap }, v.elems.length)

/-- Vector<T>::PushBack(value): delegates to EmplaceBack (discarding the
returned reference). -/
def Vec.pushBack (v : Vec α) (a : α) : Vec α :=
  (v.emplaceBack a).1

/-- Vector<T>::PopBack(): destroys the last live element and decrements
`size_`.  Precondition `size_ > 0` (asserted in the source). -/
def Vec.popBack (v : Vec α) : Vec α :=
  { elems := v.elems.dropLast, cap := v.cap }

/-- std::move_backward(first, last, d_last) on a block, by offsets: repeatedly
`*(--d_last) = std::move(*(--last))` while `first != last`.  Reads that have
not yet been overwritten, exactly as the overlapping backward copy of the
source relies on. -/
def listMoveBackward : List α → Nat → Nat → Nat → List α
  | l, _, 0, _ => l
  | l, first, last + 1, dlast =>
    if first < last + 1 then
      listMoveBackward
        (match l[last]? with
         | some x => l.set (dlast - 1) x
         | none => l)
        first last (dlast - 1)
    else l

/-- One step of std::move(first, last, d_first) iterated `n` times:
`*d_first++ = std::move(*first++)`. -/
def listMoveForwardAux : Nat → List α → Nat → Nat → List α
  | 0, l, _, _ => l
  | n + 1, l, first, dfirst =>
    listMoveForwardAux n
      (match l[first]? with
       | some x => l.set dfirst x
       | none => l)
      (first + 1) (dfirst + 1)

/-- std::move(first, last, d_first) on a block, by offsets: the loop body runs
`last - first` times. -/
def listMoveForward (l : List α) (first last dfirst : Nat) : List α :=
  listMoveForwardAux (last - first) l first dfirst

/-- Vector<T>::Emplace(pos, args...), `num_position = pos - begin()`.
Reallocating path (`size_ == Capacity()`): the new element is constructed at
offset `num_position` of the new block, the elements before `pos` are
relocated to the same offsets and the elements from `pos` on are relocated one
slot further right; then the old elements are destroyed and the blocks
swapped.  In-place path: construct at the end when `pos == end()`; otherwise
build the value into a temporary, move-construct the current last element into
the end slot, shift `[pos, end()-1)` one slot right with move_backward and
move-assign the temporary into the vacated slot.  Returns
`data_ + num_position`, modelled as the offset `num_position`. -/
def Vec.emplace (v : Vec α) (pos : Nat) (a : α) : Vec α × Nat :=
  let numPosition := pos
  if v.elems.length = v.cap then
    ({ elems := v.elems.take numPosition ++ [a] ++ v.elems.drop numPosition,
       cap := if v.elems.length = 0 then 1 else v.elems.length * 2 },
     numPosition)
  else
    if pos = v.elems.length then
      ({ elems := v.elems ++ [a], cap := v.cap }, numPosition)
    else
      match v.elems.getLast? with
      | none =>
        -- with a valid pos this branch is unreachable: pos < size forces a
        -- nonempty element list
        ({ elems := v.elems ++ [a], cap := v.cap }, numPosition)
      | some lastElem =>
        let l0 := v.elems ++ [lastElem]
        let l1 := listMoveBackward l0 numPosition (v.elems.length - 1) v.elems.length
        ({ elems := l1.set numPosition a, cap := v.cap }, numPosition)

/-- Vector<T>::Insert(pos, value): delegates to Emplace. -/
def Vec.insert (v : Vec α) (pos : Nat) (a : α) : Vec α × Nat :=
  v.emplace pos a

/-- Vector<T>::Erase(pos): `num_position = pos - begin()`; shifts the elements
after `pos` one slot left with std::move, then PopBack destroys the duplicate
last slot.  Returns `begin() + num_position`, modelled as the offset.  The
source asserts `begin() <= pos && pos < end()`; its `pos == end()` branch is
unreachable under that assertion and is kept here verbatim. -/
def Vec.erase (v : Vec α) (pos : Nat) : Vec α × Nat :=
  let numPosition := pos
  if pos = v.elems.length then
    (v.popBack, v.elems.length - 1)
  else
    let shifted : Vec α :=
      { elems := listMoveForward v.elems (numPosition + 1) v.elems.length numPosition,
        cap := v.cap }
    (shifted.popBack, numPosition)

/-- Vector<T>::Swap(other): exchanges the blocks and the sizes. -/
def Vec.swap (v w : Vec α) : Vec α × Vec α :=
  (w, v)

/-- A push or pop step, for reasoning about sequences of the two operations. -/
inductive PPOp (α : Type) where
  | push : α → PPOp α
  | pop : PPOp α
deriving Repr, DecidableEq

/-- Apply one push/pop operation. -/
def applyPP (v : Vec α) : PPOp α → Vec α
  | .push a => v.pushBack a
  | .pop => v.popBack

/-- Run a sequence of push/pop operations left to right. -/
def runPP (v : Vec α) : List (PPOp α) → Vec α
  | [] => v
  | op :: rest => runPP (applyPP v op) rest

/-- A sequence is valid when every pop happens on a nonempty container
(PopBack's asserted precondition `size_ > 0`). -/
def validPP (v : Vec α) : List (PPOp α) → Bool
  | [] => true
  | .push a :: rest => validPP (v.pushBack a) rest
  | .pop :: rest => (v.elems.length != 0) && validPP v.popBack rest

/-- Number of pushes in a sequence. -/
def countPush : List (PPOp α) → Nat
  | [] => 0
  | .push _ :: rest => countPush rest + 1
  | .pop :: rest => countPush rest

/-- Number of pops in a sequence. -/
def countPop : List (PPOp α) → Nat
  | [] => 0
  | .push _ :: rest => countPop rest
  | .pop :: rest => countPop rest + 1

/-- Capacities observed along a sequence: the initial capacity followed by the
capacity after each operation. -/
def capTrace (v : Vec α) : List (PPOp α) → List Nat
  | [] => [v.cap]
  | op :: rest => v.cap :: capTrace (applyPP v op) rest

/- Fallible semantics for the operations documented as non-throwing.  Element
destruction and raw pointer/size manipulation cannot throw; a move assignment
of an element value `a` throws exactly when `failMA a` holds, matching a type
whose move (or copy) assignment operator may throw. -/

/-- Whether an Except-computation succeeded. -/
def exOk : Except Unit β → Bool
  | Except.ok _ => true
  | Except.error _ => false

/-- std::move(first, last, d_first) where each move assignment may throw:
the loop stops and the exception propagates at the first failing value. -/
def listMoveForwardAuxE (failMA : α → Bool) : Nat → List α → Nat → Nat → Except Unit (List α)
  | 0, l, _, _ => Except.ok l
  | n + 1, l, first, dfirst =>
    match l[first]? with
    | some x =>
      if failMA x then Except.error ()
      else listMoveForwardAuxE failMA n (l.set dfirst x) (first + 1) (dfirst + 1)
    | none => listMoveForwardAuxE failMA n l (first + 1) (dfirst + 1)

/-- Fallible std::move over offsets `[first, last)` into `dfirst`. -/
def listMoveForwardE (failMA : α → Bool) (l : List α) (first last dfirst : Nat) :
    Except Unit (List α) :=
  listMoveForwardAuxE failMA (last - first) l first dfirst

/-- Vector<T>::PopBack() in the fallible semantics: it only destroys an
element and decrements the size, neither of which can throw. -/
def Vec.popBackE (v : Vec α) : Except Unit (Vec α) :=
  Except.ok v.popBack

/-- Vector<T>::Swap(other) in the fallible semantics: raw pointer and size
swaps cannot throw. -/
def Vec.swapE (v w : Vec α) : Except Unit (Vec α × Vec α) :=
  Except.ok (v.swap w)

/-- Vector<T>::Erase(pos) in the fallible semantics: the left shift is a chain
of move assignments, each of which may throw; PopBack cannot. -/
def Vec.eraseE (failMA : α → Bool) (v : Vec α) (pos : Nat) : Except Unit (Vec α × Nat) :=
  if pos = v.elems.length then
    Except.ok (v.popBack, v.elems.length - 1)
  else
    match listMoveForwardE failMA v.elems (pos + 1) v.elems.length pos with
    | Except.ok shifted =>
      Except.ok (({ elems := shifted.dropLast, cap := v.cap } : Vec α), pos)
    | Except.error e => Except.error e

/- Slot-level view for the self-aliasing append.  A block is a list of slots;
`some x` is a slot holding a constructed element of value `x`, `none` an
uninitialized slot. -/

/-- Slot-level view of Vector<T>: the block owned through RawMemory (whose
length is the capacity) and `size_`. -/
structure MVec (α : Type) where
  data : List (Option α)
  size : Nat
deriving Repr, DecidableEq

/-- An argument to EmplaceBack: either a plain value or a reference into the
container being mutated (as in `v.PushBack(v[i])`). -/
inductive Arg (α : Type) where
  | val : α → Arg α
  | ref : Nat → Arg α

/-- Read an argument against a block: a reference reads the slot it aims at,
at the moment the new element is constructed. -/
def Arg.eval (block : List (Option α)) : Arg α → Option α
  | .val a => some a
  | .ref i => block.getD i none

/-- std::uninitialized_move_n(begin(), n, new_data.GetAddress()): slot `m` of
the destination receives the value held in slot `m` of the source, for
`m < n`. -/
def uninitMoveN (src : List (Option α)) : Nat → List (Option α) → List (Option α)
  | 0, dst => dst
  | m + 1, dst => (uninitMoveN src m dst).set m (src.getD m none)

/-- Vector<T>::EmplaceBack at slot level.  On the reallocating path the new
element is constructed into the new block first — reading through the
argument while the old block is still intact — and only then does
TransferAndSwap relocate the old elements, destroy the originals and swap. -/
def MVec.emplaceBack (v : MVec α) (arg : Arg α) : MVec α :=
  if v.size = v.data.length then
    let fresh : List (Option α) :=
      List.replicate (if v.size = 0 then 1 else v.size * 2) none
    let constructed := fresh.set v.size (Arg.eval v.data arg)
    let transferred := uninitMoveN v.data v.size constructed
    { data := transferred, size := v.size + 1 }
  else
    { data := v.data.set v.size (Arg.eval v.data arg), size := v.size + 1 }

/-- Vector<T>::PushBack(v[i]): the argument is a reference to slot `i` of the
container itself. -/
def MVec.pushBackRef (v : MVec α) (i : Nat) : MVec α :=
  v.emplaceBack (Arg.ref i)

/- Construction/destruction event traces in the destination block during a
relocation whose element copies may throw (the copy-fallback paths of
EmplaceBack, Emplace and Reserve). -/

/-- An element lifetime event on a slot of the new block. -/
inductive Ev where
  | construct : Nat → Ev
  | destroy : Nat → Ev
deriving Repr, DecidableEq

/-- std::uninitialized_copy_n of the given source values into consecutive
slots starting at `dst`.  Copying a value `a` with `fails a` throws; the
algorithm then destroys the elements it itself already constructed (in
unspecified order) before letting the exception propagate.  Returns the trace
and whether the copy completed. -/
def uninitCopyNEv (fails : α → Bool) : List α → Nat → List Ev × Bool
  | [], _ => ([], true)
  | a :: rest, dst =>
    if fails a then ([], false)
    else
      match uninitCopyNEv fails rest (dst + 1) with
      | (evs, true) => (Ev.construct dst :: evs, true)
      | (evs, false) => (Ev.construct dst :: (evs ++ [Ev.destroy dst]), false)

/-- std::destroy_n(block + start, n): destroys slots `start, ..., start+n-1`. -/
def destroyNEv (start n : Nat) : List Ev :=
  (List.range n).map (fun j => Ev.destroy (start + j))

/-- Trace of Vector<T>::Emplace's reallocating copy path on a full container
with live values `elems`, inserting at offset `p`: construct the new element
at slot `p`; try to copy the prefix `[0, p)` to slots `[0, p)` and the suffix
`[p, size)` to slots `[p+1, size+1)`; on failure the catch block runs
`std::destroy_n(new_data.GetAddress(), num_position + 1)` and rethrows. -/
def emplaceReallocCopyEv (fails : α → Bool) (elems : List α) (p : Nat) : List Ev × Bool :=
  match uninitCopyNEv fails (elems.take p) 0 with
  | (evs1, true) =>
    match uninitCopyNEv fails (elems.drop p) (p + 1) with
    | (evs2, true) => (Ev.construct p :: (evs1 ++ evs2), true)
    | (evs2, false) => (Ev.construct p :: (evs1 ++ evs2 ++ destroyNEv 0 (p + 1)), false)
  | (evs1, false) => (Ev.construct p :: (evs1 ++ destroyNEv 0 (p + 1)), false)

/-- Trace of TransferAndSwap's copy branch: uninitialized_copy_n of all live
values into the new block (the old block's destruction is not an event of the
new block). -/
def transferAndSwapCopyEv (fails : α → Bool) (elems : List α) : List Ev × Bool :=
  uninitCopyNEv fails elems 0

/-- Trace of Vector<T>::EmplaceBack's reallocating copy path: construct the
new element at slot `size_`, then TransferAndSwap; on failure the catch block
runs `std::destroy_n(new_data.GetAddress() + size_, 1)` and rethrows. -/
def emplaceBackReallocCopyEv (fails : α → Bool) (elems : List α) : List Ev × Bool :=
  match transferAndSwapCopyEv fails elems with
  | (evs, true) => (Ev.construct elems.length :: evs, true)
  | (evs, false) =>
    (Ev.construct elems.length :: (evs ++ [Ev.destroy elems.length]), false)

/-- Trace of Vector<T>::Reserve's copy path: TransferAndSwap alone. -/
def reserveCopyEv (fails : α → Bool) (elems : List α) : List Ev × Bool :=
  transferAndSwapCopyEv fails elems

/-- Replay a trace over the set of live slots.  Constructing an occupied slot
or destroying a slot that holds no constructed element is undefined behavior
and yields `none`. -/
def runEvs : List Ev → List Nat → Option (List Nat)
  | [], live => some live
  | Ev.construct s :: rest, live =>
    if s ∈ live then none else runEvs rest (s :: live)
  | Ev.destroy s :: rest, live =>
    if s ∈ live then runEvs rest (live.erase s) else none

/-- A trace is clean when it never constructs an occupied slot, never destroys
a dead slot, and ends with no element of the new block alive. -/
def cleanEvs (evs : List Ev) : Bool :=
  match runEvs evs [] with
  | some live => live.isEmpty
  | none => false

/- Model of RawMemory's destructor and Deallocate. -/

/-- A raw buffer pointer: null or the address of an allocation. -/
inductive Ptr where
  | null : Ptr
  | addr : Nat → Ptr
deriving Repr, DecidableEq

/-- RawMemory<T>: the owned buffer pointer and the capacity. -/
structure RawMemoryR where
  buffer : Ptr
  capacity : Nat
deriving Repr, DecidableEq

/-- operator delete: releases the allocation behind a non-null pointer and is
a no-op on a null pointer.  The result lists the released addresses. -/
def operatorDelete : Ptr → List Nat
  | Ptr.null => []
  | Ptr.addr n => [n]

/-- RawMemory<T>::Deallocate(buf): calls operator delete on `buf`,
unconditionally. -/
def rawDeallocate (buf : Ptr) : List Nat :=
  operatorDelete buf

/-- The Deallocate invocations performed by the destructor
`~RawMemory() { Deallocate(buffer_); }`: one call, with the stored pointer,
whatever that pointer is. -/
def destructorDeallocateCalls (r : RawMemoryR) : List Ptr :=
  [r.buffer]

/-- The addresses actually released when the destructor runs. -/
def destructorReleases (r : RawMemoryR) : List Nat :=
  rawDeallocate r.buffer

end AdvVector

namespace AdvVector

/- Helper lemmas about the push/pop operations. -/

theorem pushBack_elems (v : Vec α) (a : α) : (v.pushBack a).elems = v.elems ++ [a] := by
  unfold Vec.pushBack Vec.emplaceBack
  split <;> rfl

theorem popBack_elems (v : Vec α) : v.popBack.elems = v.elems.dropLast := rfl

theorem cap_le_applyPP (v : Vec α) (op : PPOp α) : v.cap ≤ (applyPP v op).cap := by
  cases op with
  | push a =>
    show v.cap ≤ (v.pushBack a).cap
    unfold Vec.pushBack Vec.emplaceBack
    split
    next h =>
      dsimp only
      split
      next h0 => omega
      next h0 => omega
    next h => exact Nat.le_refl _
  | pop => exact Nat.le_refl _

theorem capTrace_shape (w : Vec α) (l : List (PPOp α)) :
    ∃ t, capTrace w l = w.cap :: t := by
  cases l with
  | nil => exact ⟨[], rfl⟩
  | cons op rest => exact ⟨capTrace (applyPP w op) rest, rfl⟩

theorem capTrace_chain (v : Vec α) (ops : List (PPOp α)) :
    List.Chain' (fun a b => a ≤ b) (capTrace v ops) := by
  induction ops generalizing v with
  | nil => exact List.chain'_singleton v.cap
  | cons op rest ih =>
    obtain ⟨t, ht⟩ := capTrace_shape (applyPP v op) rest
    have hch := ih (applyPP v op)
    rw [ht] at hch
    show List.Chain' (fun a b => a ≤ b) (v.cap :: capTrace (applyPP v op) rest)
    rw [ht]
    exact List.chain'_cons.mpr ⟨cap_le_applyPP v op, hch⟩

theorem runPP_length (v : Vec α) (ops : List (PPOp α)) (hv : validPP v ops = true) :
    ((runPP v ops).elems.length : ℤ) =
      (v.elems.length : ℤ) + countPush ops - countPop ops := by
  induction ops generalizing v with
  | nil => simp [runPP, countPush, countPop]
  | cons op rest ih =>
    cases op with
    | push a =>
      have hv' : validPP (v.pushBack a) rest = true := hv
      have := ih (v.pushBack a) hv'
      rw [pushBack_elems] at this
      show ((runPP (v.pushBack a) rest).elems.length : ℤ) = _
      rw [this]
      simp [countPush, countPop]
      ring
    | pop =>
      have hv' : v.elems.length ≠ 0 ∧ validPP v.popBack rest = true := by
        have := hv
        simp only [validPP, Bool.and_eq_true, bne_iff_ne, ne_eq] at this
        exact this
      have := ih v.popBack hv'.2
      rw [popBack_elems] at this
      show ((runPP v.popBack rest).elems.length : ℤ) = _
      rw [this]
      have hlen : v.elems.length ≠ 0 := hv'.1
      simp [countPush, countPop, List.length_dropLast]
      omega

/-- C3: for every valid sequence of PushBack and PopBack operations (each pop
on a nonempty container) starting from any vector, the final size equals the
initial size plus the number of pushes minus the number of pops, and the
capacity observed after each operation is monotonically non-decreasing over
the whole sequence. -/
theorem push_pop_size_and_cap_monotone (α : Type) (v : Vec α) (ops : List (PPOp α))
    (hv : validPP v ops = true) :
    ((runPP v ops).elems.length : ℤ) =
      (v.elems.length : ℤ) + countPush ops - countPop ops
    ∧ List.Chain' (fun a b => a ≤ b) (capTrace v ops) :=
  ⟨runPP_length v ops hv, capTrace_chain v ops⟩

/-- Witness for C3 at the concrete sequence push 1, push 2, pop, push 3 from
the empty container. -/
theorem push_pop_size_and_cap_monotone_witness :
    validPP (⟨[], 0⟩ : Vec Nat) [PPOp.push 1, PPOp.push 2, PPOp.pop, PPOp.push 3] = true
    ∧ ((runPP (⟨[], 0⟩ : Vec Nat)
          [PPOp.push 1, PPOp.push 2, PPOp.pop, PPOp.push 3]).elems.length : ℤ) =
        ((([] : List Nat).length : ℤ) + countPush [PPOp.push (1:Nat), PPOp.push 2, PPOp.pop, PPOp.push 3]
          - countPop [PPOp.push (1:Nat), PPOp.push 2, PPOp.pop, PPOp.push 3])
    ∧ List.Chain' (fun a b => a ≤ b)
        (capTrace (⟨[], 0⟩ : Vec Nat) [PPOp.push 1, PPOp.push 2, PPOp.pop, PPOp.push 3]) :=
  ⟨by decide,
   (push_pop_size_and_cap_monotone Nat ⟨[], 0⟩ _ (by decide)).1,
   (push_pop_size_and_cap_monotone Nat ⟨[], 0⟩ _ (by decide)).2⟩

/-- C4: Reserve(n) is the identity when n is at most the current capacity;
otherwise it sets the capacity to exactly n and keeps the size and all
element values (in order) unchanged. -/
theorem reserve_spec (α : Type) (v : Vec α) (n : Nat) :
    (n ≤ v.cap → v.reserve n = v)
    ∧ (v.cap < n →
        (v.reserve n).cap = n ∧ (v.reserve n).elems = v.elems
        ∧ (v.reserve n).elems.length = v.elems.length) := by
  constructor
  · intro h
    simp [Vec.reserve, h]
  · intro h
    have hne : ¬ n ≤ v.cap := by omega
    simp [Vec.reserve, hne, Vec.transferAndSwap]

/-- Witness for C4 at a vector of capacity 2, with n = 2 (no-op) and n = 5
(growing). -/
theorem reserve_spec_witness :
    Vec.reserve (⟨[1, 2], 2⟩ : Vec Nat) 2 = (⟨[1, 2], 2⟩ : Vec Nat)
    ∧ ((Vec.reserve (⟨[1, 2], 2⟩ : Vec Nat) 5).cap = 5
       ∧ (Vec.reserve (⟨[1, 2], 2⟩ : Vec Nat) 5).elems = [1, 2]
       ∧ (Vec.reserve (⟨[1, 2], 2⟩ : Vec Nat) 5).elems.length = ([1, 2] : List Nat).length) :=
  ⟨(reserve_spec Nat ⟨[1, 2], 2⟩ 2).1 (by decide),
   (reserve_spec Nat ⟨[1, 2], 2⟩ 5).2 (by decide)⟩

/-- C5: on a full container (size = capacity) an append or a reallocating
Emplace allocates a block of capacity 1 when the capacity is 0 and twice the
current size otherwise; pushing 1,2,3,4,5 into a default-constructed
container yields size 5, the observed capacity sequence 1,2,4,4,8 and the
contents [1,2,3,4,5]. -/
theorem growth_policy_spec (α : Type) (v : Vec α) (a : α) (p : Nat)
    (hfull : v.elems.length = v.cap) :
    ((v.emplaceBack a).1.cap = if v.cap = 0 then 1 else 2 * v.elems.length)
    ∧ ((v.emplace p a).1.cap = if v.cap = 0 then 1 else 2 * v.elems.length)
    ∧ capTrace (⟨[], 0⟩ : Vec Nat)
        [PPOp.push 1, PPOp.push 2, PPOp.push 3, PPOp.push 4, PPOp.push 5]
        = [0, 1, 2, 4, 4, 8]
    ∧ (runPP (⟨[], 0⟩ : Vec Nat)
        [PPOp.push 1, PPOp.push 2, PPOp.push 3, PPOp.push 4, PPOp.push 5]).elems
        = [1, 2, 3, 4, 5] := by
  refine ⟨?_, ?_, by decide, by decide⟩
  · have h1 : (v.emplaceBack a).1.cap
        = if v.elems.length = 0 then 1 else v.elems.length * 2 := by
      unfold Vec.emplaceBack
      rw [if_pos hfull]
    rw [h1, ← hfull]
    split_ifs <;> omega
  · have h1 : (v.emplace p a).1.cap
        = if v.elems.length = 0 then 1 else v.elems.length * 2 := by
      simp only [Vec.emplace]
      rw [if_pos hfull]
    rw [h1, ← hfull]
    split_ifs <;> omega

/-- Witness for C5 at a full one-element vector. -/
theorem growth_policy_spec_witness :
    (Vec.emplaceBack (⟨[9], 1⟩ : Vec Nat) 3).1.cap
      = (if (1 : Nat) = 0 then 1 else 2 * ([9] : List Nat).length)
    ∧ (Vec.emplace (⟨[9], 1⟩ : Vec Nat) 0 3).1.cap
      = (if (1 : Nat) = 0 then 1 else 2 * ([9] : List Nat).length) :=
  ⟨(growth_policy_spec Nat ⟨[9], 1⟩ 3 0 (by decide)).1,
   (growth_policy_spec Nat ⟨[9], 1⟩ 3 0 (by decide)).2.1⟩

/-- C10: EmplaceBack returns (a reference to) the element at index size-1 of
the updated vector, which is the element just constructed from the arguments,
on both the reallocating and the spare-capacity path. -/
theorem emplaceBack_returns_new_element (α : Type) (v : Vec α) (a : α) :
    (v.emplaceBack a).2 = (v.emplaceBack a).1.elems.length - 1
    ∧ (v.emplaceBack a).1.elems[(v.emplaceBack a).2]? = some a := by
  unfold Vec.emplaceBack
  split <;> simp [List.getElem?_concat_length]

/-- C9 counterexample: destroying a RawMemory whose region pointer is null
does invoke Deallocate — the destructor calls `Deallocate(buffer_)`
unconditionally, so the claim that the deallocation is never invoked on a
null region is false. -/
theorem raw_destructor_invokes_deallocate_on_null :
    destructorDeallocateCalls ⟨Ptr.null, 0⟩ = [Ptr.null]
    ∧ destructorDeallocateCalls ⟨Ptr.null, 0⟩ ≠ [] := by
  exact ⟨rfl, by decide⟩

/-- C9 amended: the destructor always invokes Deallocate, passing the stored
(possibly null) region pointer; the underlying operator delete releases
memory only for a non-null pointer, so destroying a RawMemory with a null
region releases nothing. -/
theorem raw_destructor_release_spec (r : RawMemoryR) :
    destructorDeallocateCalls r = [r.buffer]
    ∧ (r.buffer = Ptr.null → destructorReleases r = [])
    ∧ ∀ n, r.buffer = Ptr.addr n → destructorReleases r = [n] := by
  refine ⟨rfl, ?_, ?_⟩
  · intro h
    simp [destructorReleases, rawDeallocate, operatorDelete, h]
  · intro n h
    simp [destructorReleases, rawDeallocate, operatorDelete, h]

/-- Witness for C9's amended statement at a null and at a non-null block. -/
theorem raw_destructor_release_spec_witness :
    destructorDeallocateCalls ⟨Ptr.null, 0⟩ = [Ptr.null]
    ∧ destructorReleases ⟨Ptr.null, 0⟩ = []
    ∧ destructorReleases ⟨Ptr.addr 7, 2⟩ = [7] :=
  ⟨(raw_destructor_release_spec ⟨Ptr.null, 0⟩).1,
   (raw_destructor_release_spec ⟨Ptr.null, 0⟩).2.1 rfl,
   (raw_destructor_release_spec ⟨Ptr.addr 7, 2⟩).2.2 7 rfl⟩

/-- C2: the copy-fallback rollback of the reallocating Emplace is wrong.  On
the full container [7, 1] (a type whose copy construction throws on the value
7), Emplace at offset 1 constructs the new element at slot 1 of the new
block, the prefix copy of the value 7 throws before constructing anything,
and the catch block then runs destroy_n(new_data, 2): its trace destroys
slot 0, which holds no constructed element — undefined behavior — so the
rollback is not clean.  The analogous EmplaceBack and Reserve failures roll
back cleanly. -/
theorem emplace_copy_rollback_overdestroys :
    (emplaceReallocCopyEv (fun n => n == 7) [7, 1] 1).2 = false
    ∧ (emplaceReallocCopyEv (fun n => n == 7) [7, 1] 1).1
        = [Ev.construct 1, Ev.destroy 0, Ev.destroy 1]
    ∧ cleanEvs (emplaceReallocCopyEv (fun n => n == 7) [7, 1] 1).1 = false
    ∧ cleanEvs (emplaceBackReallocCopyEv (fun n => n == 7) [7, 1]).1 = true
    ∧ cleanEvs (reserveCopyEv (fun n => n == 7) [1, 2, 7]).1 = true := by
  decide

/-- C8 counterexample: for an element type whose (move) assignment throws on
the value 7, Erase at the valid non-end position 0 of [1, 7] raises an error,
so Erase is not non-throwing for every element type admitted by the
container (the source declares it noexcept only conditionally). -/
theorem erase_throwing_type_fails :
    exOk (Vec.eraseE (fun n => n == 7) (⟨[1, 7], 2⟩ : Vec Nat) 0) = false
    ∧ Vec.eraseE (fun n => n == 7) (⟨[1, 7], 2⟩ : Vec Nat) 0 = Except.error () := by
  exact ⟨rfl, rfl⟩

end AdvVector

namespace AdvVector

/- Characterization of the shifting loops. -/

theorem listMoveBackward_length {α : Type} :
    ∀ (last : Nat) (l : List α) (first dlast : Nat),
    (listMoveBackward l first last dlast).length = l.length := by
  intro last
  induction last with
  | zero =>
    intro l first dlast
    simp only [listMoveBackward]
  | succ last ih =>
    intro l first dlast
    simp only [listMoveBackward]
    split
    · rw [ih]
      cases hx : l[last]? <;> simp
    · rfl

theorem listMoveForwardAux_length {α : Type} :
    ∀ (n : Nat) (l : List α) (first dfirst : Nat),
    (listMoveForwardAux n l first dfirst).length = l.length := by
  intro n
  induction n with
  | zero =>
    intro l first dfirst
    simp only [listMoveForwardAux]
  | succ n ih =>
    intro l first dfirst
    simp only [listMoveForwardAux]
    rw [ih]
    cases hx : l[first]? <;> simp

theorem listMoveBackward_getElem? {α : Type} (first : Nat) :
    ∀ (last : Nat) (l : List α) (dlast j : Nat),
    dlast = last + 1 → first ≤ last → last < l.length →
    (listMoveBackward l first last dlast)[j]? =
      if first < j ∧ j ≤ last then l[j - 1]? else l[j]? := by
  intro last
  induction last with
  | zero =>
    intro l dlast j hd hfl hl
    subst hd
    have hf0 : first = 0 := by omega
    subst hf0
    have h0 : listMoveBackward l 0 0 (0 + 1) = l := by
      simp only [listMoveBackward]
    rw [h0, if_neg (by omega)]
  | succ last ih =>
    intro l dlast j hd hfl hl
    subst hd
    by_cases hc : first = last + 1
    · have hdef : listMoveBackward l first (last + 1) (last + 1 + 1) = l := by
        simp only [listMoveBackward]
        rw [if_neg (by omega)]
      rw [hdef, if_neg (by omega)]
    · have hfl' : first ≤ last := by omega
      have hllt : last < l.length := by omega
      have hx : l[last]? = some l[last] := List.getElem?_eq_getElem hllt
      have hstep : listMoveBackward l first (last + 1) (last + 1 + 1)
          = listMoveBackward (l.set (last + 1) l[last]) first last (last + 1) := by
        simp only [listMoveBackward]
        rw [if_pos (by omega), hx]
        rfl
      rw [hstep,
        ih (l.set (last + 1) l[last]) (last + 1) j rfl hfl'
          (by simp only [List.length_set]; exact hllt)]
      by_cases h1 : first < j ∧ j ≤ last
      · rw [if_pos h1, if_pos (by omega), List.getElem?_set_ne (by omega)]
      · by_cases h2 : j = last + 1
        · subst h2
          rw [if_neg h1, if_pos (by omega), List.getElem?_set_self hl,
            Nat.add_sub_cancel, hx]
        · rw [if_neg h1, if_neg (by omega), List.getElem?_set_ne (by omega)]

theorem listMoveForwardAux_getElem? {α : Type} :
    ∀ (n : Nat) (l : List α) (first dfirst j : Nat),
    dfirst = first - 1 → 1 ≤ first → first + n ≤ l.length →
    (listMoveForwardAux n l first dfirst)[j]? =
      if first - 1 ≤ j ∧ j < first - 1 + n then l[j + 1]? else l[j]? := by
  intro n
  induction n with
  | zero =>
    intro l first dfirst j hd h1 hl
    subst hd
    have h0 : listMoveForwardAux 0 l first (first - 1) = l := by
      simp only [listMoveForwardAux]
    rw [h0, if_neg (by omega)]
  | succ n ih =>
    intro l first dfirst j hd h1 hl
    subst hd
    have hflt : first < l.length := by omega
    have hx : l[first]? = some l[first] := List.getElem?_eq_getElem hflt
    have hstep : listMoveForwardAux (n + 1) l first (first - 1)
        = listMoveForwardAux n (l.set (first - 1) l[first]) (first + 1) (first - 1 + 1) := by
      simp only [listMoveForwardAux]
      rw [hx]
    have hff : first - 1 + 1 = first := by omega
    rw [hstep, hff,
      ih (l.set (first - 1) l[first]) (first + 1) first j (by omega) (by omega)
        (by simp only [List.length_set]; omega)]
    by_cases hA : first + 1 - 1 ≤ j ∧ j < first + 1 - 1 + n
    · rw [if_pos hA, if_pos (by omega), List.getElem?_set_ne (by omega)]
    · by_cases hB : j = first - 1
      · subst hB
        rw [if_neg hA, if_pos (by omega), List.getElem?_set_self (by omega),
          hff, hx]
      · rw [if_neg hA, if_neg (by omega), List.getElem?_set_ne (by omega)]

/- Pointwise form of the target sequences of Insert and Erase. -/

theorem insertTarget_getElem? {α : Type} (xs : List α) (p j : Nat) (a : α)
    (hp : p ≤ xs.length) :
    (xs.take p ++ a :: xs.drop p)[j]? =
      if j < p then xs[j]? else if j = p then some a else xs[j - 1]? := by
  have hlt : (xs.take p).length = p := by
    simp only [List.length_take]; omega
  by_cases h1 : j < p
  · rw [List.getElem?_append_left (by omega), List.getElem?_take_of_lt h1, if_pos h1]
  · rw [List.getElem?_append_right (by omega), hlt]
    by_cases h2 : j = p
    · subst h2
      rw [Nat.sub_self, if_neg h1, if_pos rfl]
      simp
    · have hsub : j - p = (j - p - 1) + 1 := by omega
      rw [hsub, List.getElem?_cons_succ, List.getElem?_drop]
      have harith : p + (j - p - 1) = j - 1 := by omega
      rw [harith, if_neg h1, if_neg h2]

theorem eraseTarget_getElem? {α : Type} (xs : List α) (p j : Nat) (hp : p ≤ xs.length) :
    (xs.take p ++ xs.drop (p + 1))[j]? =
      if j < p then xs[j]? else xs[j + 1]? := by
  have hlt : (xs.take p).length = p := by
    simp only [List.length_take]; omega
  by_cases h1 : j < p
  · rw [List.getElem?_append_left (by omega), List.getElem?_take_of_lt h1, if_pos h1]
  · rw [List.getElem?_append_right (by omega), hlt, List.getElem?_drop]
    have harith : p + 1 + (j - p) = j + 1 := by omega
    rw [harith, if_neg h1]

/- The element sequence produced by Emplace and Erase. -/

theorem emplace_ret {α : Type} (v : Vec α) (pos : Nat) (a : α) :
    (v.emplace pos a).2 = pos := by
  simp only [Vec.emplace]
  split
  · rfl
  · split
    · rfl
    · split <;> rfl

theorem emplace_elems {α : Type} (v : Vec α) (pos : Nat) (a : α)
    (hp : pos ≤ v.elems.length) :
    (v.emplace pos a).1.elems = v.elems.take pos ++ a :: v.elems.drop pos := by
  simp only [Vec.emplace]
  split
  next hfull =>
    dsimp only
    rw [List.append_assoc, List.singleton_append]
  next hnfull =>
    split
    next hend =>
      subst hend
      dsimp only
      rw [List.take_length, List.drop_length]
    next hne =>
      have hplt : pos < v.elems.length := by omega
      have hlen1 : 1 ≤ v.elems.length := by omega
      cases hlast : v.elems.getLast? with
      | none =>
        rw [List.getLast?_eq_getElem?] at hlast
        have hcon := List.getElem?_eq_none_iff.mp hlast
        exact absurd hcon (by omega)
      | some lastElem =>
        dsimp only
        have hlastv : v.elems[v.elems.length - 1]? = some lastElem := by
          rw [← List.getLast?_eq_getElem?]; exact hlast
        apply List.ext_getElem?
        intro j
        have hmblen :
            (listMoveBackward (v.elems ++ [lastElem]) pos (v.elems.length - 1)
              v.elems.length).length = v.elems.length + 1 := by
          rw [listMoveBackward_length]; simp
        have hmb := listMoveBackward_getElem? pos (v.elems.length - 1)
          (v.elems ++ [lastElem]) v.elems.length j (by omega) (by omega)
          (by simp only [List.length_append, List.length_cons, List.length_nil]; omega)
        rw [insertTarget_getElem? v.elems pos j a hp]
        by_cases hj : j = pos
        · subst hj
          rw [List.getElem?_set_self (by rw [hmblen]; omega),
            if_neg (Nat.lt_irrefl _), if_pos rfl]
        · rw [List.getElem?_set_ne (by omega), hmb]
          by_cases h1 : pos < j ∧ j ≤ v.elems.length - 1
          · rw [if_pos h1, List.getElem?_append_left (by omega),
              if_neg (by omega), if_neg (by omega)]
          · by_cases h2 : j < pos
            · rw [if_neg h1, List.getElem?_append_left (by omega), if_pos h2]
            · have hgt : pos < j := by omega
              rw [if_neg h1]
              by_cases h3 : j = v.elems.length
              · subst h3
                rw [List.getElem?_concat_length, if_neg (by omega), if_neg (by omega),
                  hlastv]
              · rw [List.getElem?_eq_none
                    (by simp only [List.length_append, List.length_cons,
                          List.length_nil]; omega),
                  if_neg (by omega), if_neg (by omega),
                  List.getElem?_eq_none (by omega)]

theorem erase_ret {α : Type} (v : Vec α) (pos : Nat) (hp : pos < v.elems.length) :
    (v.erase pos).2 = pos := by
  simp only [Vec.erase]
  rw [if_neg (by omega)]

theorem erase_elems {α : Type} (v : Vec α) (pos : Nat) (hp : pos < v.elems.length) :
    (v.erase pos).1.elems = v.elems.take pos ++ v.elems.drop (pos + 1) := by
  simp only [Vec.erase]
  rw [if_neg (by omega)]
  dsimp only [Vec.popBack]
  apply List.ext_getElem?
  intro j
  have hlen : (listMoveForward v.elems (pos + 1) v.elems.length pos).length
      = v.elems.length := by
    show (listMoveForwardAux (v.elems.length - (pos + 1)) v.elems (pos + 1) pos).length = _
    rw [listMoveForwardAux_length]
  have hmf := listMoveForwardAux_getElem? (v.elems.length - (pos + 1)) v.elems
    (pos + 1) pos j (by omega) (by omega) (by omega)
  rw [List.getElem?_dropLast, hlen,
    eraseTarget_getElem? v.elems pos j (by omega)]
  by_cases h0 : j < v.elems.length - 1
  · rw [if_pos h0]
    show (listMoveForwardAux (v.elems.length - (pos + 1)) v.elems (pos + 1) pos)[j]? = _
    rw [hmf]
    by_cases h1 : pos ≤ j
    · rw [if_pos (by omega), if_neg (by omega)]
    · rw [if_neg (by omega), if_pos (by omega)]
  · rw [if_neg h0, if_neg (by omega), List.getElem?_eq_none (by omega)]

/-- C6: Insert(pos, value) at offset p of a vector of size n yields size n+1,
keeps the elements before p, shifts the elements from p on one slot right,
stores the inserted value at offset p and returns (an iterator to) offset p,
on both the reallocating and the in-place path. -/
theorem insert_spec (α : Type) (v : Vec α) (pos : Nat) (a : α)
    (hp : pos ≤ v.elems.length) :
    (v.insert pos a).1.elems.length = v.elems.length + 1
    ∧ (v.insert pos a).1.elems.take pos = v.elems.take pos
    ∧ (v.insert pos a).1.elems.drop (pos + 1) = v.elems.drop pos
    ∧ (v.insert pos a).1.elems[pos]? = some a
    ∧ (v.insert pos a).2 = pos := by
  have hE : (v.insert pos a).1.elems = v.elems.take pos ++ a :: v.elems.drop pos :=
    emplace_elems v pos a hp
  refine ⟨?_, ?_, ?_, ?_, emplace_ret v pos a⟩
  · rw [hE]
    simp only [List.length_append, List.length_take, List.length_cons, List.length_drop]
    omega
  · rw [hE]
    exact List.take_left' (by simp only [List.length_take]; omega)
  · rw [hE]
    have hsplit : v.elems.take pos ++ a :: v.elems.drop pos
        = (v.elems.take pos ++ [a]) ++ v.elems.drop pos := by
      rw [List.append_assoc, List.singleton_append]
    rw [hsplit]
    exact List.drop_left'
      (by simp only [List.length_append, List.length_take, List.length_cons,
            List.length_nil]; omega)
  · rw [hE, insertTarget_getElem? v.elems pos pos a hp,
      if_neg (Nat.lt_irrefl pos), if_pos rfl]

/-- Witness for C6 at the spec's example: inserting 99 at offset 1 of [1,2,3]
(spare capacity) yields [1,99,2,3]. -/
theorem insert_spec_witness :
    (Vec.insert (⟨[1, 2, 3], 4⟩ : Vec Nat) 1 99).1.elems.length = [1, 2, 3].length + 1
    ∧ (Vec.insert (⟨[1, 2, 3], 4⟩ : Vec Nat) 1 99).1.elems.take 1 = [1, 2, 3].take 1
    ∧ (Vec.insert (⟨[1, 2, 3], 4⟩ : Vec Nat) 1 99).1.elems.drop 2 = [1, 2, 3].drop 1
    ∧ (Vec.insert (⟨[1, 2, 3], 4⟩ : Vec Nat) 1 99).1.elems[1]? = some 99
    ∧ (Vec.insert (⟨[1, 2, 3], 4⟩ : Vec Nat) 1 99).2 = 1 :=
  insert_spec Nat ⟨[1, 2, 3], 4⟩ 1 99 (by decide)

/-- C7: Erase(pos) at a valid non-end offset p of a vector of size n yields
size n-1, keeps the elements before p, shifts the elements after p one slot
left, and returns (an iterator to) offset p — which is the end position
exactly when the erased element was the last one. -/
theorem erase_spec (α : Type) (v : Vec α) (pos : Nat) (hp : pos < v.elems.length) :
    (v.erase pos).1.elems.length = v.elems.length - 1
    ∧ (v.erase pos).1.elems.take pos = v.elems.take pos
    ∧ (v.erase pos).1.elems.drop pos = v.elems.drop (pos + 1)
    ∧ (v.erase pos).2 = pos
    ∧ (pos = v.elems.length - 1 → (v.erase pos).2 = (v.erase pos).1.elems.length) := by
  have hE := erase_elems v pos hp
  refine ⟨?_, ?_, ?_, erase_ret v pos hp, ?_⟩
  · rw [hE]
    simp only [List.length_append, List.length_take, List.length_drop]
    omega
  · rw [hE]
    exact List.take_left' (by simp only [List.length_take]; omega)
  · rw [hE]
    exact List.drop_left' (by simp only [List.length_take]; omega)
  · intro hlastpos
    rw [erase_ret v pos hp, hE]
    simp only [List.length_append, List.length_take, List.length_drop]
    omega

/-- Witness for C7 at the spec's example: erasing offset 1 of [1,2,3] yields
[1,3]; erasing the last offset returns the new end position. -/
theorem erase_spec_witness :
    (Vec.erase (⟨[1, 2, 3], 4⟩ : Vec Nat) 1).1.elems.length = [1, 2, 3].length - 1
    ∧ (Vec.erase (⟨[1, 2, 3], 4⟩ : Vec Nat) 1).1.elems.take 1 = [1, 2, 3].take 1
    ∧ (Vec.erase (⟨[1, 2, 3], 4⟩ : Vec Nat) 1).1.elems.drop 1 = [1, 2, 3].drop 2
    ∧ (Vec.erase (⟨[1, 2, 3], 4⟩ : Vec Nat) 1).2 = 1
    ∧ (Vec.erase (⟨[1, 2, 3], 4⟩ : Vec Nat) 2).2
        = (Vec.erase (⟨[1, 2, 3], 4⟩ : Vec Nat) 2).1.elems.length :=
  ⟨(erase_spec Nat ⟨[1, 2, 3], 4⟩ 1 (by decide)).1,
   (erase_spec Nat ⟨[1, 2, 3], 4⟩ 1 (by decide)).2.1,
   (erase_spec Nat ⟨[1, 2, 3], 4⟩ 1 (by decide)).2.2.1,
   (erase_spec Nat ⟨[1, 2, 3], 4⟩ 1 (by decide)).2.2.2.1,
   (erase_spec Nat ⟨[1, 2, 3], 4⟩ 2 (by decide)).2.2.2.2 (by decide)⟩

end AdvVector

namespace AdvVector

/- Slot-level lemmas for the aliasing append. -/

theorem uninitMoveN_length (src : List (Option α)) :
    ∀ (n : Nat) (dst : List (Option α)),
    (uninitMoveN src n dst).length = dst.length := by
  intro n
  induction n with
  | zero => intro dst; rfl
  | succ m ih =>
    intro dst
    show ((uninitMoveN src m dst).set m (src.getD m none)).length = dst.length
    rw [List.length_set, ih]

theorem uninitMoveN_getElem? (src : List (Option α)) :
    ∀ (n : Nat) (dst : List (Option α)) (j : Nat), n ≤ dst.length →
    (uninitMoveN src n dst)[j]? =
      if j < n then some (src.getD j none) else dst[j]? := by
  intro n
  induction n with
  | zero =>
    intro dst j hn
    rw [if_neg (by omega)]
    rfl
  | succ m ih =>
    intro dst j hn
    show ((uninitMoveN src m dst).set m (src.getD m none))[j]? = _
    by_cases hj : j = m
    · subst hj
      rw [List.getElem?_set_self (by rw [uninitMoveN_length]; omega), if_pos (by omega)]
    · rw [List.getElem?_set_ne (by omega), ih dst j (by omega)]
      by_cases hj2 : j < m
      · rw [if_pos hj2, if_pos (by omega)]
      · rw [if_neg hj2, if_neg (by omega)]

/-- C1: appending an element of the container itself to a full container
(PushBack(v[i]) via EmplaceBack, with size = capacity) is safe: because the
new element is constructed into the newly allocated block before the old
elements are relocated and destroyed, the result holds the original value of
slot i at the new slot `size`, and all prior slots are unchanged. -/
theorem aliasing_pushBack_correct (α : Type) (v : MVec α) (i : Nat) (x : α)
    (hfull : v.size = v.data.length) (hx : v.data[i]? = some (some x)) :
    (v.pushBackRef i).size = v.size + 1
    ∧ (v.pushBackRef i).data[v.size]? = some (some x)
    ∧ ∀ j, j < v.size → (v.pushBackRef i).data[j]? = v.data[j]? := by
  have hi : i < v.data.length := by
    by_contra hcon
    rw [List.getElem?_eq_none (by omega)] at hx
    cases hx
  have hsz : 0 < v.size := by omega
  unfold MVec.pushBackRef MVec.emplaceBack
  rw [if_pos hfull]
  dsimp only
  have hL : (if v.size = 0 then 1 else v.size * 2) = v.size * 2 := if_neg (by omega)
  rw [hL]
  have hdstlen :
      ((List.replicate (v.size * 2) (none : Option α)).set v.size
        (Arg.eval v.data (Arg.ref i))).length = v.size * 2 := by
    rw [List.length_set, List.length_replicate]
  have hmove := uninitMoveN_getElem? v.data v.size
    ((List.replicate (v.size * 2) (none : Option α)).set v.size
      (Arg.eval v.data (Arg.ref i)))
  refine ⟨rfl, ?_, ?_⟩
  · rw [hmove v.size (by omega), if_neg (by omega),
      List.getElem?_set_self (by rw [List.length_replicate]; omega)]
    show some (v.data.getD i none) = some (some x)
    rw [List.getD_eq_getElem?_getD, hx]
    rfl
  · intro j hj
    rw [hmove j (by omega), if_pos hj,
      List.getD_eq_getElem?_getD, List.getElem?_eq_getElem (by omega)]
    rfl

/-- Witness for C1: pushing a reference to slot 0 of the full one-element
container [5] yields the two-element container [5, 5]. -/
theorem aliasing_pushBack_correct_witness :
    (MVec.pushBackRef (⟨[some 5], 1⟩ : MVec Nat) 0).size = 1 + 1
    ∧ (MVec.pushBackRef (⟨[some 5], 1⟩ : MVec Nat) 0).data[1]? = some (some 5)
    ∧ (MVec.pushBackRef (⟨[some 5], 1⟩ : MVec Nat) 0).data[0]?
        = ([some 5] : List (Option Nat))[0]? :=
  ⟨(aliasing_pushBack_correct Nat ⟨[some 5], 1⟩ 0 5 rfl rfl).1,
   (aliasing_pushBack_correct Nat ⟨[some 5], 1⟩ 0 5 rfl rfl).2.1,
   (aliasing_pushBack_correct Nat ⟨[some 5], 1⟩ 0 5 rfl rfl).2.2 0 (by decide)⟩

/- The non-throwing operations. -/

theorem listMoveForwardAuxE_ok (failMA : α → Bool) (hnt : ∀ a, failMA a = false) :
    ∀ (n : Nat) (l : List α) (first dfirst : Nat),
    ∃ r, listMoveForwardAuxE failMA n l first dfirst = Except.ok r := by
  intro n
  induction n with
  | zero => intro l first dfirst; exact ⟨l, rfl⟩
  | succ n ih =>
    intro l first dfirst
    show (∃ r,
      (match l[first]? with
       | some x =>
         if failMA x then Except.error ()
         else listMoveForwardAuxE failMA n (l.set dfirst x) (first + 1) (dfirst + 1)
       | none => listMoveForwardAuxE failMA n l (first + 1) (dfirst + 1)) = Except.ok r)
    cases hx : l[first]? with
    | none => exact ih l (first + 1) (dfirst + 1)
    | some x =>
      dsimp only
      rw [hnt x, if_neg (by simp)]
      exact ih (l.set dfirst x) (first + 1) (dfirst + 1)

/-- C8 amended: PopBack on a nonempty vector and Swap never fail for any
element type; Erase at a valid non-end position never fails when the element
type's move assignment cannot throw (the condition under which the source
declares Erase noexcept).  For an element type with a throwing assignment,
Erase can fail (see the counterexample). -/
theorem nothrow_ops_spec (α : Type) (v w : Vec α) (pos : Nat) (failMA : α → Bool)
    (hpos : pos < v.elems.length) (hnt : ∀ a, failMA a = false) :
    exOk v.popBackE = true
    ∧ exOk (v.swapE w) = true
    ∧ exOk (Vec.eraseE failMA v pos) = true := by
  refine ⟨rfl, rfl, ?_⟩
  unfold Vec.eraseE
  rw [if_neg (by omega)]
  obtain ⟨r, hr⟩ := listMoveForwardAuxE_ok failMA hnt
    (v.elems.length - (pos + 1)) v.elems (pos + 1) pos
  show exOk
    (match listMoveForwardE failMA v.elems (pos + 1) v.elems.length pos with
     | Except.ok shifted =>
       Except.ok (({ elems := shifted.dropLast, cap := v.cap } : Vec α), pos)
     | Except.error e => Except.error e) = true
  unfold listMoveForwardE
  rw [hr]
  rfl

/-- Witness for C8's amended statement on a concrete vector with an element
type whose assignments never throw. -/
theorem nothrow_ops_spec_witness :
    exOk (Vec.popBackE (⟨[1, 2], 2⟩ : Vec Nat)) = true
    ∧ exOk (Vec.swapE (⟨[1, 2], 2⟩ : Vec Nat) (⟨[], 0⟩ : Vec Nat)) = true
    ∧ exOk (Vec.eraseE (fun _ => false) (⟨[1, 2], 2⟩ : Vec Nat) 0) = true :=
  nothrow_ops_spec Nat ⟨[1, 2], 2⟩ ⟨[], 0⟩ 0 (fun _ => false) (by decide) (fun a => rfl)

end AdvVector
